import Mathlib

/-!
Verification of the next-token sampling strategies (greedy, temperature,
top-k, top-p/nucleus) implemented in `LLM-Sampling-Techniques.ipynb`.

The tensor code is embedded shallowly: a logits tensor of shape `(V,)`
becomes a `List ℚ`, the uniform random draw consumed by
`torch.multinomial` becomes an explicit argument `u ∈ [0,1)`, and a
`RuntimeError` thrown by a torch primitive becomes
`Except.error SamplerError.torchError`.  The real exponential used by
`F.softmax` is not a rational function, so `softmaxWith` is parametrized
by the exponential map `E`; every theorem assumes only `∀ x, 0 < E x`,
which holds for the real `exp`.  `ratExp` is a concrete computable
positive function used to instantiate witnesses.
-/

/-- Error outcomes of a sampler call or construction.  `torchError` stands
for a `RuntimeError` raised inside a torch primitive (`topk` with `k`
out of range, `multinomial` on an empty or invalid distribution, `argmax`
on an empty tensor).  `configError` and `invalidInput` are the error
classes named by the design document; the notebook never raises them. -/
inductive SamplerError where
  | torchError : SamplerError
  | configError : SamplerError
  | invalidInput : SamplerError
  deriving DecidableEq

/-- Softmax `exp(x_i) / Σ_j exp(x_j)` of `F.softmax(logits, dim=-1)`,
parametrized by the exponential map `E`.  `F.softmax` subtracts the row
maximum before exponentiating, which in exact arithmetic leaves the value
unchanged. -/
def softmaxWith (E : ℚ → ℚ) (logits : List ℚ) : List ℚ :=
  let exps := logits.map E
  exps.map (fun x => x / exps.sum)

/-- Computable strictly positive stand-in for the exponential map, used to
instantiate witnesses. -/
def ratExp (x : ℚ) : ℚ :=
  if 0 ≤ x then x + 1 else 1 / (1 - x)

/-- Inverse-CDF draw: the smallest index `j` whose running cumulative
weight strictly exceeds the threshold `t`.  This is the draw performed by
`torch.multinomial(probs, num_samples=1)` once the uniform variate and the
total weight are fixed. -/
def drawFrom (t : ℚ) : List ℚ → Option Nat
  | [] => none
  | q :: qs => if t < q then some 0 else (drawFrom (t - q) qs).map (· + 1)

/-- Model of `torch.multinomial(probs, num_samples=1)` given the uniform
variate `u ∈ [0,1)` consumed from the generator.  `torch.multinomial`
raises a `RuntimeError` when the tensor is empty, contains a negative
entry, or has total weight `≤ 0`; otherwise it draws index `j` with
probability `probs[j] / probs.sum`. -/
def multinomial (probs : List ℚ) (u : ℚ) : Except SamplerError Nat :=
  if probs.isEmpty then Except.error SamplerError.torchError
  else if probs.any (fun q => decide (q < 0)) then Except.error SamplerError.torchError
  else if probs.sum ≤ 0 then Except.error SamplerError.torchError
  else
    match drawFrom (u * probs.sum) probs with
    | some j => Except.ok j
    | none => Except.error SamplerError.torchError

/-- Index returned by `logits.argmax(dim=-1)`: the first position whose
value is greater than or equal to every entry of the list. -/
def argmaxIdx (l : List ℚ) : Nat :=
  l.findIdx (fun x => l.all (fun y => decide (y ≤ x)))

/-- `GreedySampler.__call__`: `return logits.argmax(dim=-1)`.  torch's
`argmax` raises a `RuntimeError` on an empty reduction dimension and
consumes no randomness, so the model takes no uniform variate. -/
def GreedySampler.call (logits : List ℚ) : Except SamplerError Nat :=
  if logits.isEmpty then Except.error SamplerError.torchError
  else Except.ok (argmaxIdx logits)

/-- Configuration stored by `TemperatureSampler.__init__`. -/
structure TemperatureSampler where
  temperature : ℚ

/-- `TemperatureSampler.__init__(temperature)`: a bare assignment
`self.temperature = temperature` with no validation, so construction
always succeeds. -/
def TemperatureSampler.init (temperature : ℚ) : Except SamplerError TemperatureSampler :=
  Except.ok ⟨temperature⟩

/-- `TemperatureSampler.__call__`: branch to greedy argmax when the
temperature is zero, otherwise scale the logits by `1/temperature`,
softmax, and draw once from the resulting distribution. -/
def TemperatureSampler.call (E : ℚ → ℚ) (s : TemperatureSampler)
    (logits : List ℚ) (u : ℚ) : Except SamplerError Nat :=
  if s.temperature = 0 then
    GreedySampler.call logits
  else
    multinomial (softmaxWith E (logits.map (fun x => x / s.temperature))) u

/-- Pair ordering used to model `torch.sort(probs, descending=True)` and
`torch.topk`: a pair `(value, original index)` precedes another when its
value is at least as large, so a stable sort under this relation lists
values descending with ties broken by the lower original index. -/
def pairGE (a b : ℚ × Nat) : Prop := b.1 ≤ a.1

instance : DecidableRel pairGE := fun a b => inferInstanceAs (Decidable (b.1 ≤ a.1))

instance : IsTotal (ℚ × Nat) pairGE := ⟨fun a b => le_total b.1 a.1⟩

instance : IsTrans (ℚ × Nat) pairGE := ⟨fun _ _ _ h1 h2 => le_trans h2 h1⟩

/-- Tag each value with its position, starting from `i`. -/
def enumerateFrom (i : Nat) : List ℚ → List (ℚ × Nat)
  | [] => []
  | q :: qs => (q, i) :: enumerateFrom (i + 1) qs

/-- Tag each value of a list with its original index. -/
def enumerate (l : List ℚ) : List (ℚ × Nat) := enumerateFrom 0 l

/-- Stable descending sort of `(value, index)` pairs: the `(values,
indices)` result of `torch.sort(·, descending=True)`, with ties broken by
the lower original index. -/
def sortPairsDesc (l : List (ℚ × Nat)) : List (ℚ × Nat) :=
  List.insertionSort pairGE l

/-- The `(values, indices)` pairs returned by `torch.topk(logits, k)`:
the `k` pairs with the largest values, ties broken by lower index. -/
def topkPairs (logits : List ℚ) (k : Nat) : List (ℚ × Nat) :=
  (sortPairsDesc (enumerate logits)).take k

/-- The `k` vocabulary ids with the `k` largest logits, ties broken by
the lower index: the candidate set of top-k sampling. -/
def topkIds (logits : List ℚ) (k : Nat) : List Nat :=
  (topkPairs logits k).map Prod.snd

/-- Configuration stored by `TopKSampler.__init__`. -/
structure TopKSampler where
  k : Nat

/-- `TopKSampler.__init__(k)`: a bare assignment `self.k = k` with no
validation or clamping, so construction always succeeds. -/
def TopKSampler.init (k : Nat) : Except SamplerError TopKSampler :=
  Except.ok ⟨k⟩

/-- `TopKSampler.__call__`: `torch.topk(logits, self.k)` (which raises a
`RuntimeError` when `k` exceeds the vocabulary size), softmax restricted
to the selected logits, one multinomial draw, and mapping the drawn
position back through the selected indices. -/
def TopKSampler.call (E : ℚ → ℚ) (s : TopKSampler)
    (logits : List ℚ) (u : ℚ) : Except SamplerError Nat :=
  if logits.length < s.k then Except.error SamplerError.torchError
  else
    match multinomial (softmaxWith E ((topkPairs logits s.k).map Prod.fst)) u with
    | Except.ok j =>
      match ((topkPairs logits s.k).map Prod.snd)[j]? with
      | some i => Except.ok i
      | none => Except.error SamplerError.torchError
    | Except.error e => Except.error e

/-- Running cumulative sums starting from `s`. -/
def cumsumFrom (s : ℚ) : List ℚ → List ℚ
  | [] => []
  | q :: qs => (s + q) :: cumsumFrom (s + q) qs

/-- `torch.cumsum(·, dim=-1)`: the list of running cumulative sums. -/
def cumsum (l : List ℚ) : List ℚ := cumsumFrom 0 l

/-- `torch.searchsorted(cum, v)` with the default left semantics: the
first index whose entry is `≥ v`, or the length when no entry is. -/
def searchsorted (v : ℚ) : List ℚ → Nat
  | [] => 0
  | c :: cs => if v ≤ c then 0 else searchsorted v cs + 1

/-- The in-place mask `filtered_probs[m:] = 0`: keep the first `m`
entries and replace every later entry by `0`. -/
def keepFirst : Nat → List ℚ → List ℚ
  | _, [] => []
  | 0, _ :: qs => 0 :: keepFirst 0 qs
  | n + 1, q :: qs => q :: keepFirst n qs

/-- The renormalization `filtered_probs / filtered_probs.sum()`. -/
def normalizeProbs (l : List ℚ) : List ℚ :=
  l.map (fun q => q / l.sum)

/-- The `(probability, original index)` pairs of the softmax of the
logits, sorted descending: the `sorted_probs, sorted_indices` pair of
`TopPSampler.__call__`. -/
def sortedPairs (E : ℚ → ℚ) (logits : List ℚ) : List (ℚ × Nat) :=
  sortPairsDesc (enumerate (softmaxWith E logits))

/-- `cutoff_index = torch.searchsorted(cumulative_probs, p)`: the first
sorted position whose cumulative probability reaches `p`. -/
def cutoffIndex (E : ℚ → ℚ) (p : ℚ) (logits : List ℚ) : Nat :=
  searchsorted p (cumsum ((sortedPairs E logits).map Prod.fst))

/-- The sorted probabilities after the mask `filtered_probs[cutoff_index
+ 1:] = 0`. -/
def filteredProbs (E : ℚ → ℚ) (p : ℚ) (logits : List ℚ) : List ℚ :=
  keepFirst (cutoffIndex E p logits + 1) ((sortedPairs E logits).map Prod.fst)

/-- Number of sorted positions kept by top-p truncation: the nucleus
size `cutoff_index + 1`. -/
def nucleusSize (E : ℚ → ℚ) (p : ℚ) (logits : List ℚ) : Nat :=
  cutoffIndex E p logits + 1

/-- The vocabulary ids of the nucleus: the sorted-descending ids up to
and including the cutoff position. -/
def topPCandidates (E : ℚ → ℚ) (p : ℚ) (logits : List ℚ) : List Nat :=
  ((sortedPairs E logits).map Prod.snd).take (nucleusSize E p logits)

/-- Configuration stored by `TopPSampler.__init__`. -/
structure TopPSampler where
  p : ℚ

/-- `TopPSampler.__init__(p)`: a bare assignment `self.p = p` with no
validation, so construction always succeeds. -/
def TopPSampler.init (p : ℚ) : Except SamplerError TopPSampler :=
  Except.ok ⟨p⟩

/-- `TopPSampler.__call__`: softmax, stable descending sort, cumulative
sums, `searchsorted` cutoff, mask beyond the cutoff, renormalize, one
multinomial draw, and mapping the drawn sorted position back to its
original vocabulary id. -/
def TopPSampler.call (E : ℚ → ℚ) (s : TopPSampler)
    (logits : List ℚ) (u : ℚ) : Except SamplerError Nat :=
  match multinomial (normalizeProbs (filteredProbs E s.p logits)) u with
  | Except.ok j =>
    match ((sortedPairs E logits).map Prod.snd)[j]? with
    | some i => Except.ok i
    | none => Except.error SamplerError.torchError
  | Except.error e => Except.error e

/-- A list is a probability distribution: it sums to exactly `1` (hence
to `1` within the design's tolerance `1e-5`) and has no negative entry. -/
def isDistribution (l : List ℚ) : Prop :=
  l.sum = 1 ∧ ∀ q ∈ l, 0 ≤ q

/-- `i` is the stable argmax of `logits`: it carries a maximal value and
every earlier position carries a strictly smaller value. -/
def isStableArgmax (logits : List ℚ) (i : Nat) : Prop :=
  ∃ m, logits[i]? = some m ∧ (∀ x ∈ logits, x ≤ m) ∧
    ∀ j, j < i → ∀ c, logits[j]? = some c → c < m

/-- `m` is the length of the minimal sorted-descending nucleus for `p`:
every shorter sorted-order truncation has cumulative probability below
`p`, and the kept truncation reaches `p` unless it already exhausts the
whole list. -/
def isMinimalNucleus (p : ℚ) (sortedProbs : List ℚ) (m : Nat) : Prop :=
  (p ≤ (sortedProbs.take m).sum ∨ sortedProbs.length ≤ m) ∧
    ∀ m', m' < m → (sortedProbs.take m').sum < p

/-- `q` bounds every entry of `l` from above. -/
def isMaxOf (q : ℚ) (l : List ℚ) : Prop :=
  ∀ x ∈ l, x ≤ q

/-! ### Basic lemmas about the embedded primitives -/

/-- Membership from an indexing hit. -/
theorem mem_of_getElem?_eq (l : List ℚ) (j : Nat) (a : ℚ) (h : l[j]? = some a) : a ∈ l :=
  List.get?_mem (by simpa [List.get?_eq_getElem?] using h)

/-- Membership from an indexing hit, for index lists. -/
theorem mem_of_getElem?_eq_nat (l : List Nat) (j : Nat) (a : Nat) (h : l[j]? = some a) : a ∈ l :=
  List.get?_mem (by simpa [List.get?_eq_getElem?] using h)

/-- Dividing every entry divides the sum. -/
theorem sum_map_div (l : List ℚ) (c : ℚ) : (l.map (fun x => x / c)).sum = l.sum / c := by
  induction l with
  | nil => simp
  | cons x xs ih => simp [ih, add_div]

/-- The stand-in exponential is strictly positive. -/
theorem ratExp_pos (x : ℚ) : 0 < ratExp x := by
  unfold ratExp
  split
  · linarith
  · next h => exact one_div_pos.mpr (by linarith [lt_of_not_ge h])

theorem softmaxWith_length (E : ℚ → ℚ) (l : List ℚ) :
    (softmaxWith E l).length = l.length := by
  simp [softmaxWith]

theorem softmaxWith_pos (E : ℚ → ℚ) (hE : ∀ x, 0 < E x) (l : List ℚ) (hl : l ≠ []) :
    ∀ q ∈ softmaxWith E l, 0 < q := by
  intro q hq
  have hS : 0 < (l.map E).sum :=
    List.sum_pos _ (by
      intro x hx
      obtain ⟨y, _, rfl⟩ := List.mem_map.mp hx
      exact hE y) (by simpa using hl)
  simp only [softmaxWith, List.mem_map] at hq
  obtain ⟨x, ⟨y, _, rfl⟩, rfl⟩ := hq
  exact div_pos (hE y) hS

theorem softmaxWith_sum (E : ℚ → ℚ) (hE : ∀ x, 0 < E x) (l : List ℚ) (hl : l ≠ []) :
    (softmaxWith E l).sum = 1 := by
  have hS : 0 < (l.map E).sum :=
    List.sum_pos _ (by
      intro x hx
      obtain ⟨y, _, rfl⟩ := List.mem_map.mp hx
      exact hE y) (by simpa using hl)
  simp only [softmaxWith]
  rw [sum_map_div]
  exact div_self (ne_of_gt hS)

/-- A successful inverse-CDF draw lands inside the list. -/
theorem drawFrom_lt_length (t : ℚ) (l : List ℚ) (j : Nat) (h : drawFrom t l = some j) :
    j < l.length := by
  induction l generalizing t j with
  | nil => simp [drawFrom] at h
  | cons q qs ih =>
    rw [drawFrom] at h
    split at h
    · simp at h ⊢
      omega
    · obtain ⟨j', hj', rfl⟩ := Option.map_eq_some'.mp h
      simpa using Nat.succ_lt_succ (ih _ _ hj')

/-- A successful inverse-CDF draw with a nonnegative threshold lands on an
entry of strictly positive weight: zero-weight entries are never drawn. -/
theorem drawFrom_pos (t : ℚ) (l : List ℚ) (j : Nat) (ht : 0 ≤ t)
    (h : drawFrom t l = some j) : ∃ q, l[j]? = some q ∧ 0 < q := by
  induction l generalizing t j with
  | nil => simp [drawFrom] at h
  | cons q qs ih =>
    rw [drawFrom] at h
    split at h
    · next hlt =>
      obtain rfl : j = 0 := by simpa using h.symm
      exact ⟨q, by simp, lt_of_le_of_lt ht hlt⟩
    · next hge =>
      obtain ⟨j', hj', rfl⟩ := Option.map_eq_some'.mp h
      obtain ⟨q', hq', hq'pos⟩ := ih _ _ (by linarith [le_of_not_lt hge]) hj'
      exact ⟨q', by simpa using hq', hq'pos⟩

/-- A threshold strictly below the total weight always yields a draw. -/
theorem drawFrom_total (t : ℚ) (l : List ℚ) (ht : 0 ≤ t) (hlt : t < l.sum) :
    ∃ j, drawFrom t l = some j := by
  induction l generalizing t with
  | nil => simp at hlt; linarith
  | cons q qs ih =>
    rw [drawFrom]
    by_cases hq : t < q
    · exact ⟨0, by simp [hq]⟩
    · have h1 : 0 ≤ t - q := by linarith [le_of_not_lt hq]
      have h2 : t - q < qs.sum := by
        have : (q :: qs).sum = q + qs.sum := by simp
        linarith [hlt.trans_eq this]
      obtain ⟨j', hj'⟩ := ih _ h1 h2
      exact ⟨j' + 1, by simp [hq, hj']⟩

/-- With threshold `0` a positive head weight is always drawn. -/
theorem drawFrom_head (q : ℚ) (l : List ℚ) (hq : 0 < q) :
    drawFrom 0 (q :: l) = some 0 := by
  simp [drawFrom, hq]

/-- A successful multinomial draw is an in-range position. -/
theorem multinomial_ok_lt (probs : List ℚ) (u : ℚ) (j : Nat)
    (h : multinomial probs u = Except.ok j) : j < probs.length := by
  unfold multinomial at h
  split at h
  · cases h
  split at h
  · cases h
  split at h
  · cases h
  split at h
  · next j' hj' =>
    cases h
    exact drawFrom_lt_length _ _ _ hj'
  · cases h

/-- A successful multinomial draw with a nonnegative uniform variate lands
on an entry of strictly positive weight. -/
theorem multinomial_ok_pos (probs : List ℚ) (u : ℚ) (j : Nat) (hu : 0 ≤ u)
    (h : multinomial probs u = Except.ok j) : ∃ q, probs[j]? = some q ∧ 0 < q := by
  unfold multinomial at h
  split at h
  · cases h
  split at h
  · cases h
  split at h
  · cases h
  next hsum =>
  split at h
  · next j' hj' =>
    cases h
    have hpos : 0 < probs.sum := lt_of_not_ge hsum
    exact drawFrom_pos _ _ _ (mul_nonneg hu (le_of_lt hpos)) hj'
  · cases h

/-- A nonempty nonnegative weight list of positive total always yields a
successful multinomial draw when the uniform variate lies in `[0, 1)`. -/
theorem multinomial_total (probs : List ℚ) (u : ℚ) (h1 : probs ≠ [])
    (h2 : ∀ q ∈ probs, 0 ≤ q) (h3 : 0 < probs.sum) (hu0 : 0 ≤ u) (hu1 : u < 1) :
    ∃ j, multinomial probs u = Except.ok j := by
  obtain ⟨j, hj⟩ := drawFrom_total (u * probs.sum) probs
    (mul_nonneg hu0 (le_of_lt h3)) (mul_lt_of_lt_one_left h3 hu1)
  refine ⟨j, ?_⟩
  rw [multinomial, if_neg (by simpa using h1), if_neg ?_, if_neg (not_le.mpr h3), hj]
  simp only [List.any_eq_true, not_exists]
  intro x
  simp only [decide_eq_true_eq, not_and]
  intro hx
  exact not_lt.mpr (h2 x hx)

theorem enumerateFrom_length (i : Nat) (l : List ℚ) :
    (enumerateFrom i l).length = l.length := by
  induction l generalizing i with
  | nil => rfl
  | cons q qs ih => simp [enumerateFrom, ih]

theorem enumerateFrom_map_fst (i : Nat) (l : List ℚ) :
    (enumerateFrom i l).map Prod.fst = l := by
  induction l generalizing i with
  | nil => rfl
  | cons q qs ih => simp [enumerateFrom, ih]

theorem enumerate_map_fst (l : List ℚ) : (enumerate l).map Prod.fst = l :=
  enumerateFrom_map_fst 0 l

/-- Positions produced by enumeration are in range. -/
theorem enumerateFrom_snd_lt (i : Nat) (l : List ℚ) :
    ∀ pr ∈ enumerateFrom i l, pr.2 < i + l.length := by
  induction l generalizing i with
  | nil => simp [enumerateFrom]
  | cons q qs ih =>
    intro pr hpr
    rw [enumerateFrom] at hpr
    rcases List.mem_cons.mp hpr with h | h
    · subst h
      simp
    · have := ih (i + 1) pr h
      simp only [List.length_cons]
      omega

theorem sortPairsDesc_perm (l : List (ℚ × Nat)) : (sortPairsDesc l).Perm l :=
  List.perm_insertionSort pairGE l

theorem sortPairsDesc_sorted (l : List (ℚ × Nat)) :
    List.Pairwise pairGE (sortPairsDesc l) :=
  List.sorted_insertionSort pairGE l

/-- The sorted probability values are a permutation of the softmax. -/
theorem sortedPairs_fst_perm (E : ℚ → ℚ) (logits : List ℚ) :
    ((sortedPairs E logits).map Prod.fst).Perm (softmaxWith E logits) := by
  have h := (sortPairsDesc_perm (enumerate (softmaxWith E logits))).map Prod.fst
  rwa [enumerate_map_fst] at h

theorem sortedPairs_length (E : ℚ → ℚ) (logits : List ℚ) :
    (sortedPairs E logits).length = logits.length := by
  rw [sortedPairs, (sortPairsDesc_perm _).length_eq, enumerate, enumerateFrom_length,
    softmaxWith_length]

/-- Every sorted probability value is strictly positive. -/
theorem sortedPairs_fst_pos (E : ℚ → ℚ) (hE : ∀ x, 0 < E x) (logits : List ℚ)
    (hl : logits ≠ []) : ∀ q ∈ (sortedPairs E logits).map Prod.fst, 0 < q := by
  intro q hq
  exact softmaxWith_pos E hE logits hl q ((sortedPairs_fst_perm E logits).mem_iff.mp hq)

/-- The sorted probability values sum to `1`. -/
theorem sortedPairs_fst_sum (E : ℚ → ℚ) (hE : ∀ x, 0 < E x) (logits : List ℚ)
    (hl : logits ≠ []) : ((sortedPairs E logits).map Prod.fst).sum = 1 := by
  rw [(sortedPairs_fst_perm E logits).sum_eq, softmaxWith_sum E hE logits hl]

theorem cumsumFrom_length (s : ℚ) (l : List ℚ) : (cumsumFrom s l).length = l.length := by
  induction l generalizing s with
  | nil => rfl
  | cons q qs ih => simp [cumsumFrom, ih]

/-- Entry `j` of the cumulative-sum list is the sum of the first `j + 1`
entries. -/
theorem cumsumFrom_getElem? (s : ℚ) (l : List ℚ) (j : Nat) (hj : j < l.length) :
    (cumsumFrom s l)[j]? = some (s + (l.take (j + 1)).sum) := by
  induction l generalizing s j with
  | nil => simp at hj
  | cons q qs ih =>
    cases j with
    | zero => simp [cumsumFrom]
    | succ j' =>
      rw [cumsumFrom]
      have hj' : j' < qs.length := by simpa using hj
      simp only [List.getElem?_cons_succ, ih (s + q) j' hj', List.take_succ_cons,
        List.sum_cons]
      ring_nf

theorem cumsum_getElem? (l : List ℚ) (j : Nat) (hj : j < l.length) :
    (cumsum l)[j]? = some ((l.take (j + 1)).sum) := by
  rw [cumsum, cumsumFrom_getElem? 0 l j hj, zero_add]

theorem searchsorted_le_length (v : ℚ) (l : List ℚ) : searchsorted v l ≤ l.length := by
  induction l with
  | nil => simp [searchsorted]
  | cons c cs ih =>
    rw [searchsorted]
    split
    · simp
    · simpa using Nat.succ_le_succ ih

/-- Entries strictly before the `searchsorted` position are below the
threshold. -/
theorem searchsorted_lt_of_lt (v : ℚ) (l : List ℚ) (j : Nat)
    (hj : j < searchsorted v l) : ∀ c, l[j]? = some c → c < v := by
  induction l generalizing j with
  | nil => simp [searchsorted] at hj
  | cons c cs ih =>
    rw [searchsorted] at hj
    split at hj
    · omega
    · next hvc =>
      intro c' hc'
      cases j with
      | zero =>
        simp only [List.getElem?_cons_zero, Option.some_inj] at hc'
        subst hc'
        exact lt_of_not_ge hvc
      | succ j' =>
        simp only [List.getElem?_cons_succ] at hc'
        exact ih j' (by omega) c' hc'

/-- The entry at an in-range `searchsorted` position reaches the
threshold. -/
theorem searchsorted_reaches (v : ℚ) (l : List ℚ)
    (h : searchsorted v l < l.length) :
    ∃ c, l[searchsorted v l]? = some c ∧ v ≤ c := by
  induction l with
  | nil => simp at h
  | cons c cs ih =>
    by_cases hvc : v ≤ c
    · exact ⟨c, by simp [searchsorted, hvc], hvc⟩
    · rw [searchsorted, if_neg hvc] at h ⊢
      have h' : searchsorted v cs < cs.length := by simpa using h
      obtain ⟨c', hc', hvc'⟩ := ih h'
      exact ⟨c', by simpa using hc', hvc'⟩

/-- When every entry is below the threshold, `searchsorted` returns the
length. -/
theorem searchsorted_eq_length (v : ℚ) (l : List ℚ)
    (h : ∀ (j : Nat) (c : ℚ), l[j]? = some c → c < v) : searchsorted v l = l.length := by
  induction l with
  | nil => rfl
  | cons c cs ih =>
    rw [searchsorted, if_neg (not_le.mpr (h 0 c (by simp)))]
    have : searchsorted v cs = cs.length :=
      ih (fun j c' hc' => h (j + 1) c' (by simpa using hc'))
    simp [this]

/-- When the first `m` entries are all below the threshold,
`searchsorted` returns at least `m`. -/
theorem le_searchsorted (v : ℚ) (l : List ℚ) (m : Nat) (hm : m ≤ l.length)
    (h : ∀ j c, j < m → l[j]? = some c → c < v) : m ≤ searchsorted v l := by
  induction l generalizing m with
  | nil =>
    simp only [List.length_nil, Nat.le_zero] at hm
    subst hm
    exact Nat.zero_le _
  | cons c cs ih =>
    cases m with
    | zero => exact Nat.zero_le _
    | succ m' =>
      rw [searchsorted, if_neg (not_le.mpr (h 0 c (Nat.succ_pos m') (by simp)))]
      have : m' ≤ searchsorted v cs :=
        ih m' (by simpa using hm) (fun j c' hj hc' => h (j + 1) c' (by omega) (by simpa using hc'))
      omega

theorem keepFirst_length (m : Nat) (l : List ℚ) : (keepFirst m l).length = l.length := by
  induction l generalizing m with
  | nil => cases m <;> rfl
  | cons q qs ih =>
    cases m with
    | zero => simp [keepFirst, ih 0]
    | succ n => simp [keepFirst, ih n]

/-- Entries before the mask position are untouched. -/
theorem keepFirst_getElem?_lt (m : Nat) (l : List ℚ) (j : Nat) (hj : j < m) :
    (keepFirst m l)[j]? = l[j]? := by
  induction l generalizing m j with
  | nil => cases m <;> rfl
  | cons q qs ih =>
    cases m with
    | zero => omega
    | succ n =>
      cases j with
      | zero => simp [keepFirst]
      | succ j' => simpa [keepFirst] using ih n j' (by omega)

/-- Entries at or beyond the mask position are zeroed. -/
theorem keepFirst_getElem?_ge (m : Nat) (l : List ℚ) (j : Nat) (hj : m ≤ j)
    (hjl : j < l.length) : (keepFirst m l)[j]? = some 0 := by
  induction l generalizing m j with
  | nil => simp at hjl
  | cons q qs ih =>
    cases m with
    | zero =>
      cases j with
      | zero => simp [keepFirst]
      | succ j' => simpa [keepFirst] using ih 0 j' (Nat.zero_le _) (by simpa using hjl)
    | succ n =>
      cases j with
      | zero => omega
      | succ j' => simpa [keepFirst] using ih n j' (by omega) (by simpa using hjl)

/-- A mask position at or beyond the length leaves the list unchanged. -/
theorem keepFirst_of_length_le (m : Nat) (l : List ℚ) (h : l.length ≤ m) :
    keepFirst m l = l := by
  induction l generalizing m with
  | nil => cases m <;> rfl
  | cons q qs ih =>
    cases m with
    | zero => simp at h
    | succ n => simp [keepFirst, ih n (by simpa using h)]

/-- Masking preserves nonnegativity. -/
theorem keepFirst_nonneg (m : Nat) (l : List ℚ) (h : ∀ q ∈ l, 0 ≤ q) :
    ∀ q ∈ keepFirst m l, 0 ≤ q := by
  induction l generalizing m with
  | nil => intro q hq; cases m <;> simp [keepFirst] at hq
  | cons x xs ih =>
    intro q hq
    cases m with
    | zero =>
      rw [keepFirst] at hq
      rcases List.mem_cons.mp hq with rfl | hq'
      · exact le_refl 0
      · exact ih 0 (fun y hy => h y (by simp [hy])) q hq'
    | succ n =>
      rw [keepFirst] at hq
      rcases List.mem_cons.mp hq with rfl | hq'
      · exact h q (by simp)
      · exact ih n (fun y hy => h y (by simp [hy])) q hq'

/-- A list whose head is positive and whose entries are nonnegative has a
positive sum. -/
theorem sum_pos_of_head (l : List ℚ) (q : ℚ) (h0 : l[0]? = some q) (hq : 0 < q)
    (hnn : ∀ x ∈ l, 0 ≤ x) : 0 < l.sum := by
  cases l with
  | nil => simp at h0
  | cons x xs =>
    simp only [List.getElem?_cons_zero, Option.some_inj] at h0
    subst h0
    have : 0 ≤ xs.sum := List.sum_nonneg (fun y hy => hnn y (by simp [hy]))
    simp only [List.sum_cons]
    linarith

/-- A strict truncation of a list of positive entries has a strictly
smaller sum. -/
theorem take_sum_lt_sum (l : List ℚ) (m : Nat) (hpos : ∀ x ∈ l, 0 < x)
    (hm : m < l.length) : (l.take m).sum < l.sum := by
  induction l generalizing m with
  | nil => simp at hm
  | cons x xs ih =>
    cases m with
    | zero =>
      simp only [List.take_zero, List.sum_nil]
      exact List.sum_pos _ hpos (by simp)
    | succ n =>
      have := ih n (fun y hy => hpos y (by simp [hy])) (by simpa using hm)
      simp only [List.take_succ_cons, List.sum_cons]
      linarith

/-- A truncation of a list of nonnegative entries has a sum at most the
total. -/
theorem take_sum_le_sum (l : List ℚ) (m : Nat) (hnn : ∀ x ∈ l, 0 ≤ x) :
    (l.take m).sum ≤ l.sum := by
  induction l generalizing m with
  | nil => simp
  | cons x xs ih =>
    cases m with
    | zero =>
      simp only [List.take_zero, List.sum_nil]
      exact List.sum_nonneg hnn
    | succ n =>
      have := ih n (fun y hy => hnn y (by simp [hy]))
      simp only [List.take_succ_cons, List.sum_cons]
      linarith

/-- Masking keeps exactly the truncated sum. -/
theorem keepFirst_sum (m : Nat) (l : List ℚ) : (keepFirst m l).sum = (l.take m).sum := by
  induction l generalizing m with
  | nil => cases m <;> rfl
  | cons q qs ih =>
    cases m with
    | zero => simp [keepFirst, ih 0]
    | succ n => simp [keepFirst, ih n]

theorem normalizeProbs_length (l : List ℚ) : (normalizeProbs l).length = l.length := by
  simp [normalizeProbs]

theorem normalizeProbs_getElem? (l : List ℚ) (j : Nat) :
    (normalizeProbs l)[j]? = Option.map (fun q => q / l.sum) l[j]? := by
  simp [normalizeProbs, List.getElem?_map]

theorem normalizeProbs_sum (l : List ℚ) (h : l.sum ≠ 0) : (normalizeProbs l).sum = 1 := by
  rw [normalizeProbs, sum_map_div]
  exact div_self h

theorem normalizeProbs_nonneg (l : List ℚ) (hs : 0 ≤ l.sum) (hnn : ∀ q ∈ l, 0 ≤ q) :
    ∀ q ∈ normalizeProbs l, 0 ≤ q := by
  intro q hq
  obtain ⟨x, hx, rfl⟩ := List.mem_map.mp hq
  exact div_nonneg (hnn x hx) hs

/-- A nonempty list of rationals has a maximal element. -/
theorem exists_max_mem (l : List ℚ) (h : l ≠ []) : ∃ m ∈ l, ∀ x ∈ l, x ≤ m := by
  induction l with
  | nil => exact absurd rfl h
  | cons x xs ih =>
    cases xs with
    | nil => exact ⟨x, by simp, by simp⟩
    | cons y ys =>
      obtain ⟨m, hm, hmax⟩ := ih (by simp)
      rcases le_total x m with hxm | hmx
      · refine ⟨m, by simp [hm], ?_⟩
        intro z hz
        rcases List.mem_cons.mp hz with rfl | hz'
        · exact hxm
        · exact hmax z hz'
      · refine ⟨x, by simp, ?_⟩
        intro z hz
        rcases List.mem_cons.mp hz with rfl | hz'
        · exact le_refl z
        · exact (hmax z hz').trans hmx

/-! ### Claim theorems -/

/-- C4: for every non-empty logits vector, `GreedySampler` returns the
lowest vocabulary index among the indices achieving the maximum logit
(stable argmax).  The model consumes no randomness: `GreedySampler.call`
takes no uniform variate. -/
theorem greedy_stable_argmax (logits : List ℚ) (i : Nat)
    (h : GreedySampler.call logits = Except.ok i) : isStableArgmax logits i := by
  rw [GreedySampler.call] at h
  split at h
  · cases h
  next hne =>
  have hnil : logits ≠ [] := by simpa using hne
  obtain rfl : argmaxIdx logits = i := by simpa using h
  obtain ⟨mx, hmx, hmax⟩ := exists_max_mem logits hnil
  have hlt : argmaxIdx logits < logits.length := by
    rw [argmaxIdx]
    exact List.findIdx_lt_length_of_exists
      ⟨mx, hmx, by simp only [List.all_eq_true, decide_eq_true_eq]; exact hmax⟩
  have hw : List.findIdx (fun x => logits.all fun y => decide (y ≤ x)) logits
      < logits.length := by
    rw [argmaxIdx] at hlt
    exact hlt
  have hP : ∀ y ∈ logits, y ≤ logits[argmaxIdx logits] := by
    have hall := List.findIdx_getElem (w := hw)
    simp only [List.all_eq_true, decide_eq_true_eq] at hall
    intro y hy
    exact hall y hy
  refine ⟨logits[argmaxIdx logits], List.getElem?_eq_getElem hlt, hP, ?_⟩
  intro j hj c hc
  have hjlen : j < logits.length := lt_trans hj hlt
  have hcj : logits[j] = c := by
    have h2 := List.getElem?_eq_getElem hjlen
    rw [hc] at h2
    exact (Option.some_inj.mp h2).symm
  by_contra hcon
  push_neg at hcon
  have hjw : j < List.findIdx (fun x => logits.all fun y => decide (y ≤ x)) logits := by
    rw [argmaxIdx] at hj
    exact hj
  have hfalse := List.not_of_lt_findIdx hjw
  simp only at hfalse
  rw [hcj] at hfalse
  have htrue : (logits.all fun y => decide (y ≤ c)) = true := by
    simp only [List.all_eq_true, decide_eq_true_eq]
    intro y hy
    exact (hP y hy).trans hcon
  rw [htrue] at hfalse
  cases hfalse

/-- Witness for C4: on `[1, 3, 3]` the greedy sampler returns index `1`,
the lower of the two tied maximal positions. -/
theorem greedy_stable_argmax_witness : isStableArgmax [1, 3, 3] 1 :=
  greedy_stable_argmax [1, 3, 3] 1 (by
    norm_num [GreedySampler.call, argmaxIdx, List.findIdx_cons])

/-- C3: for every logits vector, `TemperatureSampler` with temperature
`0` returns exactly the result of `GreedySampler` on that vector, via the
explicit `if self.temperature == 0` branch rather than a division by
zero. -/
theorem temperature_zero_eq_greedy (E : ℚ → ℚ) (logits : List ℚ) (u : ℚ) :
    TemperatureSampler.call E ⟨0⟩ logits u = GreedySampler.call logits := by
  simp [TemperatureSampler.call]

/-- Counterexample for C7: constructing `TemperatureSampler(-1)` does not
raise `ConfigError`; it succeeds and stores the negative temperature. -/
theorem config_validation_cex :
    TemperatureSampler.init (-1) = Except.ok ⟨-1⟩ ∧
      TemperatureSampler.init (-1) ≠ Except.error SamplerError.configError :=
  ⟨rfl, by simp [TemperatureSampler.init]⟩

/-- C7 amended: no constructor performs any validation — every parameter
value (negative temperature, `k = 0`, `p` outside `(0, 1]`) is accepted
and stored, and construction never raises. -/
theorem init_accepts_all_parameters (t : ℚ) (k : Nat) (p : ℚ) :
    TemperatureSampler.init t = Except.ok ⟨t⟩ ∧
      TopKSampler.init k = Except.ok ⟨k⟩ ∧
      TopPSampler.init p = Except.ok ⟨p⟩ :=
  ⟨rfl, rfl, rfl⟩

/-- Counterexample for C2: `TopKSampler(3)` on a 2-entry logits vector
fails with a torch error (`torch.topk` raises when `k` exceeds the size
of the last dimension); `k` is not clamped to the vocabulary size. -/
theorem topk_oversize_cex :
    TopKSampler.call ratExp ⟨3⟩ [1, 2] 0 = Except.error SamplerError.torchError := by
  simp [TopKSampler.call]

/-- C2 amended: for every `k` strictly larger than the vocabulary size,
`TopKSampler(k)` raises an error from `torch.topk` instead of clamping
`k` and sampling unrestrictedly. -/
theorem topk_oversize_errors (E : ℚ → ℚ) (k : Nat) (logits : List ℚ) (u : ℚ)
    (h : logits.length < k) :
    TopKSampler.call E ⟨k⟩ logits u = Except.error SamplerError.torchError := by
  simp [TopKSampler.call, h]

/-- Witness for the amended C2 at `k = 2` on a single-entry vocabulary. -/
theorem topk_oversize_errors_witness :
    TopKSampler.call ratExp ⟨2⟩ [5] 0 = Except.error SamplerError.torchError :=
  topk_oversize_errors ratExp 2 [5] 0 (by simp)

/-- Counterexample for C8: a sample call on an empty logits vector fails
with the underlying torch operation's error, not with `InvalidInput`: no
explicit input validation exists in the code. -/
theorem empty_logits_cex :
    GreedySampler.call [] = Except.error SamplerError.torchError ∧
      GreedySampler.call [] ≠ Except.error SamplerError.invalidInput :=
  ⟨by simp [GreedySampler.call], by simp [GreedySampler.call]⟩

/-- C8 amended: every sampler variant called on an empty logits vector
fails with a generic torch error (from `argmax`, `topk` or `multinomial`),
not with an explicit `InvalidInput`; NaN/Inf detection does not exist in
the code (and NaN/Inf are outside this exact-arithmetic model). -/
theorem empty_logits_torch_error (E : ℚ → ℚ) (t : ℚ) (k : Nat) (p : ℚ) (u : ℚ) :
    GreedySampler.call [] = Except.error SamplerError.torchError ∧
      TemperatureSampler.call E ⟨t⟩ [] u = Except.error SamplerError.torchError ∧
      TopKSampler.call E ⟨k⟩ [] u = Except.error SamplerError.torchError ∧
      TopPSampler.call E ⟨p⟩ [] u = Except.error SamplerError.torchError := by
  refine ⟨by simp [GreedySampler.call], ?_, ?_, ?_⟩
  · by_cases ht : t = 0 <;>
      simp [TemperatureSampler.call, ht, GreedySampler.call, softmaxWith, multinomial]
  · cases k with
    | zero =>
      simp [TopKSampler.call, topkPairs, enumerate, enumerateFrom, sortPairsDesc,
        List.insertionSort, softmaxWith, multinomial]
    | succ n => simp [TopKSampler.call]
  · simp [TopPSampler.call, sortedPairs, enumerate, enumerateFrom, sortPairsDesc,
      List.insertionSort, filteredProbs, cutoffIndex, cumsum, cumsumFrom,
      searchsorted, keepFirst, normalizeProbs, softmaxWith, multinomial]

theorem topkPairs_length (logits : List ℚ) (k : Nat) :
    (topkPairs logits k).length = min k logits.length := by
  rw [topkPairs, List.length_take, (sortPairsDesc_perm _).length_eq, enumerate,
    enumerateFrom_length]

/-- The head of the filtered top-p distribution is the untouched top
sorted probability. -/
theorem filteredProbs_head (E : ℚ → ℚ) (p : ℚ) (logits : List ℚ) :
    (filteredProbs E p logits)[0]? = ((sortedPairs E logits).map Prod.fst)[0]? :=
  keepFirst_getElem?_lt _ _ 0 (Nat.succ_pos _)

theorem filteredProbs_nonneg (E : ℚ → ℚ) (hE : ∀ x, 0 < E x) (p : ℚ)
    (logits : List ℚ) (hl : logits ≠ []) :
    ∀ q ∈ filteredProbs E p logits, 0 ≤ q :=
  keepFirst_nonneg _ _ (fun q hq => le_of_lt (sortedPairs_fst_pos E hE logits hl q hq))

/-- The filtered top-p distribution has strictly positive total weight:
the top sorted position always survives the mask. -/
theorem filteredProbs_sum_pos (E : ℚ → ℚ) (hE : ∀ x, 0 < E x) (p : ℚ)
    (logits : List ℚ) (hl : logits ≠ []) : 0 < (filteredProbs E p logits).sum := by
  have hlen0 : 0 < ((sortedPairs E logits).map Prod.fst).length := by
    rw [List.length_map, sortedPairs_length]
    exact List.length_pos.mpr hl
  have h0 : ((sortedPairs E logits).map Prod.fst)[0]? =
      some ((sortedPairs E logits).map Prod.fst)[0] := List.getElem?_eq_getElem hlen0
  refine sum_pos_of_head _ ((sortedPairs E logits).map Prod.fst)[0] ?_ ?_
    (filteredProbs_nonneg E hE p logits hl)
  · rw [filteredProbs_head, h0]
  · exact sortedPairs_fst_pos E hE logits hl _ (List.getElem_mem hlen0)

/-- C9: every probability distribution a sampler constructs and draws
from — the softmax of the temperature-scaled logits, the softmax over the
top-k logits, and the renormalized truncated top-p distribution — sums to
exactly `1` (hence to `1` within the design's tolerance `1e-5`) and has
no negative entries. -/
theorem sampler_distributions (E : ℚ → ℚ) (hE : ∀ x, 0 < E x) (t : ℚ)
    (logits : List ℚ) (hl : logits ≠ []) (k : Nat) (hk1 : 1 ≤ k)
    (hkV : k ≤ logits.length) (p : ℚ) :
    isDistribution (softmaxWith E (logits.map (fun x => x / t))) ∧
      isDistribution (softmaxWith E ((topkPairs logits k).map Prod.fst)) ∧
      isDistribution (normalizeProbs (filteredProbs E p logits)) := by
  refine ⟨?_, ?_, ?_⟩
  · have hscaled : logits.map (fun x => x / t) ≠ [] := by
      simpa using hl
    exact ⟨softmaxWith_sum E hE _ hscaled,
      fun q hq => le_of_lt (softmaxWith_pos E hE _ hscaled q hq)⟩
  · have htk : (topkPairs logits k).map Prod.fst ≠ [] := by
      have hlen : 0 < (topkPairs logits k).length := by
        rw [topkPairs_length]
        omega
      simpa [List.length_pos] using List.length_pos.mp (by simpa using hlen)
    exact ⟨softmaxWith_sum E hE _ htk,
      fun q hq => le_of_lt (softmaxWith_pos E hE _ htk q hq)⟩
  · have hsum := filteredProbs_sum_pos E hE p logits hl
    exact ⟨normalizeProbs_sum _ (ne_of_gt hsum),
      normalizeProbs_nonneg _ (le_of_lt hsum) (filteredProbs_nonneg E hE p logits hl)⟩

/-- Witness for C9 at temperature `2`, `k = 1`, `p = 1/2` on the logits
vector `[1, 0]`. -/
theorem sampler_distributions_witness :
    isDistribution (softmaxWith ratExp ([1, 0].map (fun x => x / 2))) ∧
      isDistribution (softmaxWith ratExp ((topkPairs [1, 0] 1).map Prod.fst)) ∧
      isDistribution (normalizeProbs (filteredProbs ratExp (1/2) [1, 0])) :=
  sampler_distributions ratExp ratExp_pos 2 [1, 0] (by simp) 1 (by norm_num)
    (by simp) (1/2)

/-- C5: whenever a `TopKSampler(k)` call returns an index, that index is
one of the `k` vocabulary ids with the `k` largest logits (ties broken by
the lowest index) — the drawn position in the restricted softmax is
mapped back to its original vocabulary id, which in particular is a valid
id below the vocabulary size. -/
theorem topk_within_candidate_set (E : ℚ → ℚ) (logits : List ℚ) (k : Nat)
    (u : ℚ) (i : Nat)
    (h : TopKSampler.call E ⟨k⟩ logits u = Except.ok i) :
    i ∈ topkIds logits k ∧ i < logits.length := by
  rw [TopKSampler.call] at h
  split at h
  · cases h
  split at h
  · next j hm =>
    split at h
    · next i0 hid =>
      obtain rfl : i0 = i := by simpa using h
      have hmem : i0 ∈ topkIds logits k := mem_of_getElem?_eq_nat _ _ _ hid
      refine ⟨hmem, ?_⟩
      obtain ⟨pr, hpr, rfl⟩ := List.mem_map.mp hmem
      have h1 : pr ∈ sortPairsDesc (enumerate logits) := List.take_subset _ _ hpr
      have h2 : pr ∈ enumerate logits := (sortPairsDesc_perm _).mem_iff.mp h1
      have h3 := enumerateFrom_snd_lt 0 logits pr h2
      simpa using h3
    · cases h
  · next e hm => cases h

/-- Witness for C5: on `[5, 1]` with `k = 1` and `u = 0` the call returns
index `0`, which lies in the top-1 candidate set. -/
theorem topk_within_candidate_set_witness :
    0 ∈ topkIds [5, 1] 1 ∧ 0 < ([5, 1] : List ℚ).length :=
  topk_within_candidate_set ratExp [5, 1] 1 0 0 (by
    norm_num [TopKSampler.call, topkPairs, sortPairsDesc, enumerate, enumerateFrom,
      List.insertionSort, List.orderedInsert, pairGE, softmaxWith, ratExp,
      multinomial, drawFrom])

/-- C1: whenever `TopPSampler(p)` with `p > 0` returns an index, that
index lies inside the minimal-length descending-probability sorted
candidate set whose cumulative softmax probability reaches `p`: the
truncation length is minimal (every strictly shorter sorted truncation
has cumulative probability below `p`) and the threshold is inclusive (the
kept truncation reaches `p` unless it exhausts the whole vocabulary). -/
theorem topP_within_minimal_nucleus (E : ℚ → ℚ) (logits : List ℚ) (p : ℚ)
    (hp : 0 < p) (u : ℚ) (hu : 0 ≤ u) (i : Nat)
    (h : TopPSampler.call E ⟨p⟩ logits u = Except.ok i) :
    i ∈ topPCandidates E p logits ∧
      isMinimalNucleus p ((sortedPairs E logits).map Prod.fst)
        (nucleusSize E p logits) := by
  set sp := (sortedPairs E logits).map Prod.fst with hspdef
  have hcumlen : (cumsum sp).length = sp.length := cumsumFrom_length 0 sp
  have hcole : searchsorted p (cumsum sp) ≤ sp.length := by
    have := searchsorted_le_length p (cumsum sp)
    omega
  have hmin : isMinimalNucleus p sp (nucleusSize E p logits) := by
    refine ⟨?_, ?_⟩
    · show p ≤ (sp.take (searchsorted p (cumsum sp) + 1)).sum ∨
          sp.length ≤ searchsorted p (cumsum sp) + 1
      rcases lt_or_ge (searchsorted p (cumsum sp)) sp.length with hlt | hge
      · left
        obtain ⟨c, hc, hpc⟩ := searchsorted_reaches p (cumsum sp) (by omega)
        have hc2 : (cumsum sp)[searchsorted p (cumsum sp)]? =
            some ((sp.take (searchsorted p (cumsum sp) + 1)).sum) :=
          cumsum_getElem? sp _ hlt
        rw [hc2] at hc
        obtain rfl := Option.some_inj.mp hc
        exact hpc
      · right
        omega
    · show ∀ m', m' < searchsorted p (cumsum sp) + 1 → (sp.take m').sum < p
      intro m' hm'
      cases m' with
      | zero => simpa using hp
      | succ n =>
        have hn : n < searchsorted p (cumsum sp) := by omega
        have hnlen : n < sp.length := by omega
        exact searchsorted_lt_of_lt p (cumsum sp) n hn
          ((sp.take (n + 1)).sum) (cumsum_getElem? sp n hnlen)
  rw [TopPSampler.call] at h
  split at h
  · next j hm =>
    split at h
    · next i0 hid =>
      obtain rfl : i0 = i := by simpa using h
      refine ⟨?_, hmin⟩
      have hjlt : j < sp.length := by
        have hj := multinomial_ok_lt _ _ _ hm
        rwa [normalizeProbs_length, filteredProbs, keepFirst_length] at hj
      obtain ⟨r, hr, hrpos⟩ := multinomial_ok_pos _ _ _ hu hm
      rw [normalizeProbs_getElem?] at hr
      obtain ⟨q, hq, hqr⟩ := Option.map_eq_some'.mp hr
      have hjco : j < nucleusSize E p logits := by
        by_contra hge
        push_neg at hge
        have h0 : (filteredProbs E p logits)[j]? = some 0 := by
          rw [filteredProbs]
          exact keepFirst_getElem?_ge _ _ _ (by exact hge) (by exact hjlt)
        rw [hq] at h0
        obtain rfl := Option.some_inj.mp h0
        rw [← hqr] at hrpos
        simp at hrpos
      refine mem_of_getElem?_eq_nat _ j _ ?_
      rw [topPCandidates, List.getElem?_take, if_pos hjco]
      exact hid
    · cases h
  · next e hm => cases h

/-- Witness for C1: on `[5, 1]` with `p = 1/2` and `u = 0` the call
returns index `0`, inside the minimal nucleus (which is `{0}` since the
top softmax probability `3/4` already reaches `1/2`). -/
theorem topP_within_minimal_nucleus_witness :
    0 ∈ topPCandidates ratExp (1/2) [5, 1] ∧
      isMinimalNucleus (1/2) ((sortedPairs ratExp [5, 1]).map Prod.fst)
        (nucleusSize ratExp (1/2) [5, 1]) :=
  topP_within_minimal_nucleus ratExp [5, 1] (1/2) (by norm_num) 0 (by norm_num) 0
    (by norm_num [TopPSampler.call, sortedPairs, sortPairsDesc, enumerate,
      enumerateFrom, List.insertionSort, List.orderedInsert, pairGE, softmaxWith,
      ratExp, normalizeProbs, filteredProbs, cutoffIndex, cumsum, cumsumFrom,
      searchsorted, keepFirst, multinomial, drawFrom])

/-- C6: the top-p candidate set is never empty.  For every non-empty
logits vector, every `p > 0` and every uniform variate in `[0, 1)` the
call succeeds; with `p = 1` the mask keeps the entire sorted distribution
(no truncation), and even when the cumulative sums never reach `p` (the
rounding scenario, modelled by `p` above the total mass) the mask keeps
everything, so the final token is still included. -/
theorem topP_candidate_set_nonempty (E : ℚ → ℚ) (hE : ∀ x, 0 < E x)
    (logits : List ℚ) (hl : logits ≠ []) (p : ℚ) (u : ℚ)
    (hu0 : 0 ≤ u) (hu1 : u < 1) :
    (TopPSampler.call E ⟨p⟩ logits u).isOk = true ∧
      (p = 1 → filteredProbs E p logits = (sortedPairs E logits).map Prod.fst) ∧
      (((sortedPairs E logits).map Prod.fst).sum < p →
        filteredProbs E p logits = (sortedPairs E logits).map Prod.fst) := by
  set sp := (sortedPairs E logits).map Prod.fst with hspdef
  have hcumlen : (cumsum sp).length = sp.length := cumsumFrom_length 0 sp
  have hsplen : sp.length = logits.length := by
    rw [hspdef, List.length_map, sortedPairs_length]
  have hlpos : 0 < logits.length := List.length_pos.mpr hl
  refine ⟨?_, ?_, ?_⟩
  · have hd := filteredProbs_sum_pos E hE p logits hl
    have hnn := filteredProbs_nonneg E hE p logits hl
    have hsum1 : (normalizeProbs (filteredProbs E p logits)).sum = 1 :=
      normalizeProbs_sum _ (ne_of_gt hd)
    have hne : normalizeProbs (filteredProbs E p logits) ≠ [] := by
      apply List.length_pos.mp
      rw [normalizeProbs_length, filteredProbs, keepFirst_length, List.length_map,
        sortedPairs_length]
      exact hlpos
    obtain ⟨j, hj⟩ := multinomial_total (normalizeProbs (filteredProbs E p logits)) u
      hne (normalizeProbs_nonneg _ (le_of_lt hd) hnn) (by rw [hsum1]; norm_num)
      hu0 hu1
    have hjlt : j < ((sortedPairs E logits).map Prod.snd).length := by
      have hj2 := multinomial_ok_lt _ _ _ hj
      rw [normalizeProbs_length, filteredProbs, keepFirst_length,
        List.length_map, sortedPairs_length] at hj2
      rwa [List.length_map, sortedPairs_length]
    have hid : ((sortedPairs E logits).map Prod.snd)[j]? =
        some (((sortedPairs E logits).map Prod.snd)[j]) :=
      List.getElem?_eq_getElem hjlt
    simp [TopPSampler.call, hj, hid, Except.isOk, Except.toBool]
  · intro hp1
    subst hp1
    show keepFirst (cutoffIndex E 1 logits + 1) sp = sp
    apply keepFirst_of_length_le
    have hpos := sortedPairs_fst_pos E hE logits hl
    have hsum := sortedPairs_fst_sum E hE logits hl
    have hlb : sp.length - 1 ≤ searchsorted 1 (cumsum sp) := by
      apply le_searchsorted 1 (cumsum sp) (sp.length - 1) (by omega)
      intro j c hjlt hc
      have hjsp : j < sp.length := by omega
      have hc2 : (cumsum sp)[j]? = some ((sp.take (j + 1)).sum) :=
        cumsum_getElem? sp j hjsp
      rw [hc2] at hc
      obtain rfl := Option.some_inj.mp hc
      calc (sp.take (j + 1)).sum < sp.sum :=
            take_sum_lt_sum sp (j + 1) hpos (by omega)
        _ = 1 := hsum
    have : searchsorted 1 (cumsum sp) = cutoffIndex E 1 logits := rfl
    omega
  · intro hlt
    show keepFirst (cutoffIndex E p logits + 1) sp = sp
    apply keepFirst_of_length_le
    have hnn : ∀ x ∈ sp, 0 ≤ x :=
      fun x hx => le_of_lt (sortedPairs_fst_pos E hE logits hl x hx)
    have heq : searchsorted p (cumsum sp) = (cumsum sp).length := by
      apply searchsorted_eq_length
      intro j c hc
      have hjl : j < (cumsum sp).length := by
        by_contra hge
        rw [List.getElem?_eq_none (by omega)] at hc
        cases hc
      have hjsp : j < sp.length := by omega
      have hc2 : (cumsum sp)[j]? = some ((sp.take (j + 1)).sum) :=
        cumsum_getElem? sp j hjsp
      rw [hc2] at hc
      obtain rfl := Option.some_inj.mp hc
      calc (sp.take (j + 1)).sum ≤ sp.sum := take_sum_le_sum sp (j + 1) hnn
        _ < p := hlt
    have : searchsorted p (cumsum sp) = cutoffIndex E p logits := rfl
    omega

/-- Witness for C6 at `p = 1` on `[1, 0]`: the call succeeds and the mask
keeps the whole sorted distribution. -/
theorem topP_candidate_set_nonempty_witness :
    (TopPSampler.call ratExp ⟨1⟩ [1, 0] 0).isOk = true ∧
      ((1 : ℚ) = 1 →
        filteredProbs ratExp 1 [1, 0] = (sortedPairs ratExp [1, 0]).map Prod.fst) ∧
      (((sortedPairs ratExp [1, 0]).map Prod.fst).sum < 1 →
        filteredProbs ratExp 1 [1, 0] = (sortedPairs ratExp [1, 0]).map Prod.fst) :=
  topP_candidate_set_nonempty ratExp ratExp_pos [1, 0] (by simp) 1 0
    (by norm_num) (by norm_num)

/-- C10: top-p never removes the single highest-probability token.  The
mask starts strictly after the cutoff position, so sorted position `0`
keeps its (maximal, strictly positive) softmax probability unchanged, and
drawing with uniform variate `0` returns exactly that token's original
vocabulary id. -/
theorem topP_keeps_top_token (E : ℚ → ℚ) (hE : ∀ x, 0 < E x)
    (logits : List ℚ) (hl : logits ≠ []) (p : ℚ) :
    (filteredProbs E p logits)[0]? = ((sortedPairs E logits).map Prod.fst)[0]? ∧
      isMaxOf (((sortedPairs E logits).map Prod.fst).headD 0) (softmaxWith E logits) ∧
      TopPSampler.call E ⟨p⟩ logits 0 =
        Except.ok (((sortedPairs E logits).map Prod.snd).headD 0) := by
  obtain ⟨s0, rest, hcons⟩ : ∃ s0 rest, sortedPairs E logits = s0 :: rest := by
    cases hc : sortedPairs E logits with
    | nil =>
      have hlen := sortedPairs_length E logits
      rw [hc] at hlen
      simp only [List.length_nil] at hlen
      exact absurd (List.length_eq_zero.mp hlen.symm) hl
    | cons a l => exact ⟨a, l, rfl⟩
  have hsort : List.Pairwise pairGE (sortedPairs E logits) := sortPairsDesc_sorted _
  have hhead0 : ((sortedPairs E logits).map Prod.fst)[0]? = some s0.1 := by
    rw [hcons]
    simp
  have hs0pos : 0 < s0.1 := by
    apply sortedPairs_fst_pos E hE logits hl
    rw [hcons]
    simp
  refine ⟨filteredProbs_head E p logits, ?_, ?_⟩
  · intro x hx
    have hx2 : x ∈ (sortedPairs E logits).map Prod.fst :=
      (sortedPairs_fst_perm E logits).mem_iff.mpr hx
    rw [hcons] at hx2
    have hhd : ((sortedPairs E logits).map Prod.fst).headD 0 = s0.1 := by
      rw [hcons]
      simp
    rw [hhd]
    rw [List.map_cons] at hx2
    rcases List.mem_cons.mp hx2 with rfl | hx3
    · exact le_refl _
    · obtain ⟨pr, hpr, rfl⟩ := List.mem_map.mp hx3
      have := List.rel_of_pairwise_cons (hcons ▸ hsort) hpr
      exact this
  · have hT := filteredProbs_sum_pos E hE p logits hl
    have hnn := filteredProbs_nonneg E hE p logits hl
    have hn0 : (normalizeProbs (filteredProbs E p logits))[0]? =
        some (s0.1 / (filteredProbs E p logits).sum) := by
      rw [normalizeProbs_getElem?, filteredProbs_head, hhead0]
      rfl
    have hnpos : 0 < s0.1 / (filteredProbs E p logits).sum := div_pos hs0pos hT
    have hm : multinomial (normalizeProbs (filteredProbs E p logits)) 0 = Except.ok 0 := by
      rw [multinomial]
      rw [if_neg ?hne, if_neg ?hany, if_neg ?hsum]
      case hne =>
        intro hempty
        rw [List.isEmpty_iff] at hempty
        rw [hempty] at hn0
        cases hn0
      case hany =>
        simp only [List.any_eq_true, not_exists]
        intro x
        simp only [decide_eq_true_eq, not_and]
        intro hx
        exact not_lt.mpr (normalizeProbs_nonneg _ (le_of_lt hT) hnn x hx)
      case hsum =>
        rw [normalizeProbs_sum _ (ne_of_gt hT)]
        norm_num
      cases hnormed : normalizeProbs (filteredProbs E p logits) with
      | nil =>
        rw [hnormed] at hn0
        cases hn0
      | cons a tail =>
        rw [hnormed] at hn0
        simp only [List.getElem?_cons_zero, Option.some_inj] at hn0
        subst hn0
        rw [zero_mul, drawFrom_head _ _ hnpos]
    have hid0 : ((sortedPairs E logits).map Prod.snd)[0]? =
        some (((sortedPairs E logits).map Prod.snd).headD 0) := by
      rw [hcons]
      simp
    simp [TopPSampler.call, hm, hid0]

/-- Witness for C10 on `[5, 1]` with `p = 3/4`: sorted position `0`
survives the mask, carries the maximal softmax probability, and is
returned when the uniform variate is `0`. -/
theorem topP_keeps_top_token_witness :
    (filteredProbs ratExp (3/4) [5, 1])[0]? =
        ((sortedPairs ratExp [5, 1]).map Prod.fst)[0]? ∧
      isMaxOf (((sortedPairs ratExp [5, 1]).map Prod.fst).headD 0)
        (softmaxWith ratExp [5, 1]) ∧
      TopPSampler.call ratExp ⟨3/4⟩ [5, 1] 0 =
        Except.ok (((sortedPairs ratExp [5, 1]).map Prod.snd).headD 0) :=
  topP_keeps_top_token ratExp ratExp_pos [5, 1] (by simp) (3/4)
